import Mathlib

set_option autoImplicit false
set_option linter.unusedSectionVars false

/-!
A shallow embedding of `niaveperfecthasher.py` (class `NaivePerfectHash`),
a "naive perfect hash" map: one backing array of optional key/value slots,
placement at `hash(key) % len(table)`, and growth by doubling on every
collision.  The embedding is parameterised over the key type `K`, the value
type `V` and the hash function `h : K → Nat` (Python's `hash(key) % n`, for
`n > 0`, is a canonical residue in `[0, n)`).  Fallible operations return
`Except PyErr`; the `__setitem__` collision loop, which Python may never
exit, takes explicit fuel.
-/

namespace NaivePerfectHash

/-- The two runtime failures the Python code can raise: `ZeroDivisionError`
from `hash(key) % 0` (a table of length zero) and `KeyError` from
`__getitem__` / `__delitem__`. -/
inductive PyErr
  | zeroDivision
  | keyError
deriving DecidableEq, Repr

/-- The backing array `self._hashtable`: each slot is `none` (Python `None`)
or an occupied `(key, value)` pair. -/
abbrev Table (K V : Type) := List (Option (K × V))

variable {K V : Type} [DecidableEq K]

/-- `__init__(self, size=INITIAL_SIZE)`: allocate `size` empty slots. -/
def mkTable (K V : Type) (size : Nat) : Table K V :=
  List.replicate size none

/-- `INITIAL_SIZE = 4`. -/
def INITIAL_SIZE : Nat := 4

/-- `__len__`: the length of the backing array (the capacity). -/
def lenMap (t : Table K V) : Nat := t.length

/-- `_fetchindex(self, key)`: compute `index = hash(key) % len(self)` and
classify the slot there.  The first component is `none` for an empty slot,
`some true` when the stored key equals `key`, and `some false` for a
collision (occupied by a different key), exactly Python's
`None` / `True` / `False`.  When the table length is zero, `%` raises
`ZeroDivisionError`. -/
def fetchindex (h : K → Nat) (t : Table K V) (k : K) :
    Except PyErr (Option Bool × Nat) :=
  if t.length = 0 then .error .zeroDivision
  else
    let index := h k % t.length
    match t.getD index none with
    | none => .ok (none, index)
    | some (storedKey, _) =>
      if storedKey = k then .ok (some true, index) else .ok (some false, index)

/-- `__contains__`: true iff `_fetchindex` returns `True` in its first
component (`is True`, so `None` and `False` are both "not contained"). -/
def containsKey (h : K → Nat) (t : Table K V) (k : K) : Except PyErr Bool :=
  match fetchindex h t k with
  | .error e => .error e
  | .ok (found, _) => .ok (found = some true)

/-- `get(self, key, default=None)`: the stored value on `Found`, otherwise
the default (`if found:` is truthy exactly on `True`).  No side effects. -/
def get (h : K → Nat) (t : Table K V) (k : K) (default : V) : Except PyErr V :=
  match fetchindex h t k with
  | .error e => .error e
  | .ok (found, index) =>
    if found = some true then
      match t.getD index none with
      | some (_, v) => .ok v
      | none => .ok default
    else .ok default

/-- `__getitem__`: the stored value on `Found`, otherwise `KeyError`. -/
def getItem (h : K → Nat) (t : Table K V) (k : K) : Except PyErr V :=
  match fetchindex h t k with
  | .error e => .error e
  | .ok (found, index) =>
    if found = some true then
      match t.getD index none with
      | some (_, v) => .ok v
      | none => .error .keyError
    else .error .keyError

/-- `__delitem__`: on `Found`, clear the slot to `None`; otherwise
`KeyError`. -/
def delItem (h : K → Nat) (t : Table K V) (k : K) : Except PyErr (Table K V) :=
  match fetchindex h t k with
  | .error e => .error e
  | .ok (found, index) =>
    if found = some true then .ok (t.set index none) else .error .keyError

/-- `items(self)`: `filter(None, self._hashtable)` — the occupied slots in
table index order (a pair is a nonempty tuple, hence always truthy). -/
def items (t : Table K V) : List (K × V) :=
  t.filterMap id

/-- `keys(self)`: the first components of `items`. -/
def keysList (t : Table K V) : List K :=
  (items t).map Prod.fst

/-- `values(self)`: the second components of `items`. -/
def valuesList (t : Table K V) : List V :=
  (items t).map Prod.snd

/-- One iteration of the `_doublethehash` loop body:
`newhashtable[hash(key) % len(newhashtable)] = (key, value)`. -/
def place (h : K → Nat) (newhashtable : Table K V) (kv : K × V) : Table K V :=
  newhashtable.set (h kv.1 % newhashtable.length) (some kv)

/-- `_doublethehash(self)`: allocate a fresh table of twice the length and
place every item of the old table at `hash(key) % len(newhashtable)`
(`List.set` keeps the length, so `len(newhashtable)` stays `2 * len(self)`
throughout the loop, as in Python). -/
def doublethehash (h : K → Nat) (t : Table K V) : Table K V :=
  (items t).foldl (place h) (List.replicate (2 * t.length) none)

/-- `__setitem__(self, key, value)`: `while found is False`, double the
table and re-resolve; then write `(key, value)` at the resolved index.  The
Python loop can run forever (keys whose hashes agree modulo every power of
two reached), so the loop takes explicit fuel: `none` means the fuel was
exhausted with the loop still colliding. -/
def setItem (h : K → Nat) :
    Nat → Table K V → K → V → Option (Except PyErr (Table K V))
  | 0, t, k, v =>
    match fetchindex h t k with
    | .error e => some (.error e)
    | .ok (some false, _) => none
    | .ok (_, index) => some (.ok (t.set index (some (k, v))))
  | fuel + 1, t, k, v =>
    match fetchindex h t k with
    | .error e => some (.error e)
    | .ok (some false, _) => setItem h fuel (doublethehash h t) k v
    | .ok (_, index) => some (.ok (t.set index (some (k, v))))

/-- `pop(self, key)`, inherited from `collections.MutableMapping`: read the
value with `__getitem__`, delete the slot with `__delitem__`, and return
the value (the spec's `remove(map, key) -> Value`). -/
def popKey (h : K → Nat) (t : Table K V) (k : K) : Except PyErr (V × Table K V) :=
  match getItem h t k with
  | .error e => .error e
  | .ok v =>
    match delItem h t k with
    | .error e => .error e
    | .ok t2 => .ok (v, t2)

/-- The operations of the public interface, for statements about arbitrary
operation sequences. -/
inductive Op (K V : Type)
  | setOp (k : K) (v : V)
  | removeOp (k : K)
  | getOp (k : K) (default : V)
  | containsOp (k : K)
  | atOp (k : K)
  | enumOp

/-- Run one operation for its effect on the table.  Read-only operations
(`get`, `contains`, `at`, enumeration) leave the table unchanged; a failed
`remove` or `set` raises but also leaves the table unchanged.  `none` means
the `set` collision loop ran out of fuel. -/
def applyOp (h : K → Nat) (fuel : Nat) (t : Table K V) :
    Op K V → Option (Table K V)
  | .setOp k v =>
    match setItem h fuel t k v with
    | none => none
    | some (.error _) => some t
    | some (.ok t2) => some t2
  | .removeOp k =>
    match delItem h t k with
    | .error _ => some t
    | .ok t2 => some t2
  | _ => some t

/-- Run a sequence of operations from left to right. -/
def runOps (h : K → Nat) (fuel : Nat) (t : Table K V) :
    List (Op K V) → Option (Table K V)
  | [] => some t
  | op :: rest =>
    match applyOp h fuel t op with
    | none => none
    | some t2 => runOps h fuel t2 rest

/-- Run a sequence of insertions, requiring each one to succeed. -/
def setAll (h : K → Nat) (fuel : Nat) (t : Table K V) :
    List (K × V) → Option (Table K V)
  | [] => some t
  | (k, v) :: rest =>
    match setItem h fuel t k v with
    | some (.ok t2) => setAll h fuel t2 rest
    | _ => none

/-- The placement invariant: every occupied slot sits exactly at its key's
hash modulo the table length. -/
def Placed (h : K → Nat) (t : Table K V) : Prop :=
  ∀ i kv, t.getD i none = some kv → h kv.1 % t.length = i

/-- The value stored for `k`, read off slot `hash k % length`: the
abstraction all the lookup operations agree with. -/
def lookupVal (h : K → Nat) (t : Table K V) (k : K) : Option V :=
  match t.getD (h k % t.length) none with
  | some (storedKey, v) => if storedKey = k then some v else none
  | none => none

/-- A decidable check equivalent to `Placed` (used to discharge the
invariant at concrete tables). -/
def placedCheck (h : K → Nat) (t : Table K V) : Bool :=
  (List.range t.length).all fun i =>
    match t.getD i none with
    | none => true
    | some kv => h kv.1 % t.length == i

/-- Extract the table of a `set` that neither diverged nor raised. -/
def okTable : Option (Except PyErr (Table K V)) → Option (Table K V)
  | some (.ok t) => some t
  | _ => none

/-- Extract the result of a non-raising call. -/
def okVal {A : Type} : Except PyErr A → Option A
  | .ok v => some v
  | .error _ => none

/-- The `__main__` scenario, step 1: `ph = NaivePerfectHash(4); ph[0] = 2`
(Python's `hash` is the identity on small non-negative ints). -/
def scenario1 : Option (Table Nat Nat) :=
  okTable (setItem id 20 (mkTable Nat Nat 4) 0 2)

/-- Scenario step 2: `ph[1024] = 3` (collides with key 0 and doubles). -/
def scenario2 : Option (Table Nat Nat) :=
  scenario1.bind fun t1 => okTable (setItem id 20 t1 1024 3)

/-- Scenario step 3: `del ph[0]`. -/
def scenario3 : Option (Table Nat Nat) :=
  scenario2.bind fun t2 =>
    match delItem id t2 0 with
    | .ok t => some t
    | .error _ => none

/-! ### Slot access lemmas -/

theorem getD_eq_some_iff {t : Table K V} {i : Nat} {kv : K × V} :
    t.getD i none = some kv ↔ t[i]? = some (some kv) := by
  rw [List.getD_eq_getElem?_getD]
  cases hg : t[i]? with
  | none => simp
  | some s => cases s <;> simp

theorem getD_eq_none_of_le {t : Table K V} {i : Nat} (hle : t.length ≤ i) :
    t.getD i none = none := by
  rw [List.getD_eq_getElem?_getD, List.getElem?_eq_none hle]
  rfl

theorem lt_of_getD_eq_some {t : Table K V} {i : Nat} {kv : K × V}
    (hg : t.getD i none = some kv) : i < t.length := by
  by_contra hlt
  rw [getD_eq_none_of_le (Nat.le_of_not_lt hlt)] at hg
  cases hg

theorem getD_set_same {t : Table K V} {i : Nat} (s : Option (K × V))
    (hi : i < t.length) : (t.set i s).getD i none = s := by
  rw [List.getD_eq_getElem?_getD, List.getElem?_set_self (by simpa using hi)]
  rfl

theorem getD_set_other {t : Table K V} {i j : Nat} (s : Option (K × V))
    (hne : i ≠ j) : (t.set i s).getD j none = t.getD j none := by
  rw [List.getD_eq_getElem?_getD, List.getElem?_set_ne hne,
    ← List.getD_eq_getElem?_getD]

theorem getD_replicate_none {n i : Nat} :
    ((List.replicate n none : Table K V)).getD i none = none := by
  rw [List.getD_eq_getElem?_getD, List.getElem?_replicate]
  split <;> rfl

theorem getD_mkTable {n i : Nat} : (mkTable K V n).getD i none = none :=
  getD_replicate_none

/-! ### `items` as the occupied slots -/

theorem mem_items {t : Table K V} {kv : K × V} :
    kv ∈ items t ↔ ∃ i, t.getD i none = some kv := by
  unfold items
  rw [List.mem_filterMap]
  constructor
  · rintro ⟨s, hs, hid⟩
    have hs' : s = some kv := hid
    subst hs'
    obtain ⟨i, hi⟩ := List.mem_iff_getElem?.1 hs
    exact ⟨i, getD_eq_some_iff.2 hi⟩
  · rintro ⟨i, hi⟩
    exact ⟨some kv, List.mem_iff_getElem?.2 ⟨i, getD_eq_some_iff.1 hi⟩, rfl⟩

theorem items_nil {t : Table K V} (ht : t.length = 0) : items t = [] := by
  rw [List.length_eq_zero] at ht
  subst ht
  rfl

/-! ### The placement invariant -/

theorem placed_mkTable (h : K → Nat) (n : Nat) : Placed h (mkTable K V n) := by
  intro i kv hg
  rw [getD_mkTable] at hg
  cases hg

theorem placed_of_check {h : K → Nat} {t : Table K V}
    (hc : placedCheck h t = true) : Placed h t := by
  intro i kv hg
  have hi : i < t.length := lt_of_getD_eq_some hg
  have := List.all_eq_true.1 hc i (List.mem_range.2 hi)
  rw [hg] at this
  have hb : (h kv.1 % t.length == i) = true := this
  simpa using hb

/-- Under `Placed`, a key stored anywhere is stored at its hash slot, so two
occupied slots with the same key coincide. -/
theorem placed_key_slot {h : K → Nat} {t : Table K V} (hp : Placed h t)
    {i : Nat} {kv : K × V} (hg : t.getD i none = some kv) :
    t.getD (h kv.1 % t.length) none = some kv := by
  rw [hp i kv hg]
  exact hg

/-! ### The rehash fold -/

theorem place_length (h : K → Nat) (nt : Table K V) (kv : K × V) :
    (place h nt kv).length = nt.length :=
  List.length_set ..

theorem foldl_place_length (h : K → Nat) (l : List (K × V)) (nt : Table K V) :
    (l.foldl (place h) nt).length = nt.length := by
  induction l generalizing nt with
  | nil => rfl
  | cons a l ih => rw [List.foldl_cons, ih, place_length]

theorem getD_foldl_place_of_ne (h : K → Nat) {l : List (K × V)}
    {nt : Table K V} {j : Nat} (hne : ∀ kv ∈ l, h kv.1 % nt.length ≠ j) :
    (l.foldl (place h) nt).getD j none = nt.getD j none := by
  induction l generalizing nt with
  | nil => rfl
  | cons a l ih =>
    rw [List.foldl_cons,
      ih (fun kv hkv => by
        rw [place_length]
        exact hne kv (List.mem_cons_of_mem _ hkv))]
    exact getD_set_other _ (hne a (List.mem_cons_self ..))

theorem getD_foldl_place_of_mem (h : K → Nat) {l : List (K × V)}
    (nt : Table K V) {kv : K × V} (hpos : 0 < nt.length) (hmem : kv ∈ l)
    (huniq : ∀ kv' ∈ l, h kv'.1 % nt.length = h kv.1 % nt.length → kv' = kv) :
    (l.foldl (place h) nt).getD (h kv.1 % nt.length) none = some kv := by
  induction l generalizing nt with
  | nil => cases hmem
  | cons a l ih =>
    rw [List.foldl_cons]
    have hlen : (place h nt a).length = nt.length := place_length ..
    by_cases hin : kv ∈ l
    · have := ih (place h nt a) (by rw [hlen]; exact hpos) hin
        (fun kv' hkv' => by
          rw [hlen]
          exact huniq kv' (List.mem_cons_of_mem _ hkv'))
      rw [hlen] at this
      exact this
    · have hkva : a = kv := by
        rcases List.mem_cons.1 hmem with hh | hh
        · exact hh.symm
        · exact absurd hh hin
      subst hkva
      rw [getD_foldl_place_of_ne h (fun kv' hkv' => by
        rw [hlen]
        intro heq
        exact hin ((huniq kv' (List.mem_cons_of_mem _ hkv') heq) ▸ hkv'))]
      exact getD_set_same _ (Nat.mod_lt _ hpos)

theorem getD_foldl_place_cases (h : K → Nat) {l : List (K × V)}
    {nt : Table K V} {j : Nat} {kv : K × V}
    (hg : (l.foldl (place h) nt).getD j none = some kv) :
    (kv ∈ l ∧ h kv.1 % nt.length = j) ∨ nt.getD j none = some kv := by
  induction l generalizing nt with
  | nil => exact .inr hg
  | cons a l ih =>
    rw [List.foldl_cons] at hg
    rcases ih hg with ⟨hmem, hidx⟩ | hnt
    · rw [place_length] at hidx
      exact .inl ⟨List.mem_cons_of_mem _ hmem, hidx⟩
    · by_cases hj : h a.1 % nt.length = j
      · by_cases hrange : h a.1 % nt.length < nt.length
        · rw [show place h nt a = nt.set (h a.1 % nt.length) (some a) from rfl,
            ← hj, getD_set_same _ hrange] at hnt
          obtain rfl : a = kv := by injection hnt
          exact .inl ⟨List.mem_cons_self .., hj⟩
        · have hlen0 : nt.length = 0 := by
            by_contra h0
            exact hrange (Nat.mod_lt _ (Nat.pos_of_ne_zero h0))
          obtain rfl : nt = [] := List.length_eq_zero.1 hlen0
          simp only [place, List.set_nil] at hnt
          cases hnt
      · rw [show place h nt a = nt.set (h a.1 % nt.length) (some a) from rfl,
          getD_set_other _ hj] at hnt
        exact .inr hnt

/-! ### `_doublethehash` -/

theorem length_doublethehash (h : K → Nat) (t : Table K V) :
    (doublethehash h t).length = 2 * t.length := by
  unfold doublethehash
  rw [foldl_place_length, List.length_replicate]

/-- Under the placement invariant, two items whose hashes agree modulo the
doubled length are the same item (residues modulo `2n` determine the
residues modulo `n` that place them). -/
theorem placed_items_uniq {h : K → Nat} {t : Table K V} (hp : Placed h t)
    {kv : K × V} (hkv : kv ∈ items t) {kv' : K × V} (hkv' : kv' ∈ items t)
    (heq : h kv'.1 % (2 * t.length) = h kv.1 % (2 * t.length)) : kv' = kv := by
  obtain ⟨i, hi⟩ := mem_items.1 hkv
  obtain ⟨i', hi'⟩ := mem_items.1 hkv'
  have hd : (t.length : Nat) ∣ 2 * t.length := dvd_mul_left _ 2
  have hmod : h kv'.1 % t.length = h kv.1 % t.length := by
    rw [← Nat.mod_mod_of_dvd (h kv'.1) hd, ← Nat.mod_mod_of_dvd (h kv.1) hd,
      heq]
  have hii : i' = i := by
    rw [← hp i kv hi, ← hp i' kv' hi', hmod]
  rw [hii, hi] at hi'
  injection hi' with hh
  exact hh.symm

theorem doublethehash_getD_mem {h : K → Nat} {t : Table K V}
    (hp : Placed h t) (hpos : 0 < t.length) {kv : K × V}
    (hmem : kv ∈ items t) :
    (doublethehash h t).getD (h kv.1 % (2 * t.length)) none = some kv := by
  unfold doublethehash
  have hlen : (List.replicate (2 * t.length) (none : Option (K × V))).length
      = 2 * t.length := List.length_replicate ..
  have := getD_foldl_place_of_mem h
    (List.replicate (2 * t.length) none)
    (by rw [hlen]; omega) hmem
    (fun kv' hkv' heq => placed_items_uniq hp hmem hkv' (by rwa [hlen] at heq))
  rwa [hlen] at this

theorem doublethehash_getD_eq_some {h : K → Nat} {t : Table K V}
    {j : Nat} {kv : K × V}
    (hg : (doublethehash h t).getD j none = some kv) :
    kv ∈ items t ∧ h kv.1 % (2 * t.length) = j := by
  unfold doublethehash at hg
  rcases getD_foldl_place_cases h hg with ⟨hmem, hidx⟩ | hrep
  · rw [List.length_replicate] at hidx
    exact ⟨hmem, hidx⟩
  · rw [getD_replicate_none] at hrep
    cases hrep

theorem doublethehash_placed {h : K → Nat} {t : Table K V} :
    Placed h (doublethehash h t) := by
  intro j kv hg
  rw [length_doublethehash]
  exact (doublethehash_getD_eq_some hg).2

/-- Growth is value-preserving: the slot-read abstraction `lookupVal` is
unchanged by `_doublethehash` on tables satisfying the placement
invariant. -/
theorem lookupVal_doublethehash {h : K → Nat} {t : Table K V}
    (hp : Placed h t) (k : K) :
    lookupVal h (doublethehash h t) k = lookupVal h t k := by
  rcases Nat.eq_zero_or_pos t.length with hlen0 | hpos
  · obtain rfl : t = [] := List.length_eq_zero.1 hlen0
    rfl
  · have hd : (t.length : Nat) ∣ 2 * t.length := dvd_mul_left _ 2
    unfold lookupVal
    rw [length_doublethehash]
    cases hslot : t.getD (h k % t.length) none with
    | none =>
      cases hnew : (doublethehash h t).getD (h k % (2 * t.length)) none with
      | none => rfl
      | some kv2 =>
        obtain ⟨hmem, hidx⟩ := doublethehash_getD_eq_some hnew
        have hmod : h kv2.1 % t.length = h k % t.length := by
          rw [← Nat.mod_mod_of_dvd (h kv2.1) hd, hidx,
            Nat.mod_mod_of_dvd (h k) hd]
        obtain ⟨i, hi⟩ := mem_items.1 hmem
        have hsame : t.getD (h k % t.length) none = some kv2 := by
          rw [← hmod, hp i kv2 hi]
          exact hi
        rw [hsame] at hslot
        cases hslot
    | some kv =>
      by_cases hk : kv.1 = k
      · have hmem : kv ∈ items t := mem_items.2 ⟨_, hslot⟩
        have hnew := doublethehash_getD_mem hp hpos hmem
        rw [hk] at hnew
        rw [hnew]
      · cases hnew : (doublethehash h t).getD (h k % (2 * t.length)) none with
        | none =>
          cases kv with
          | mk k1 v1 => simp_all
        | some kv2 =>
          obtain ⟨hmem, hidx⟩ := doublethehash_getD_eq_some hnew
          have hmod : h kv2.1 % t.length = h k % t.length := by
            rw [← Nat.mod_mod_of_dvd (h kv2.1) hd, hidx,
              Nat.mod_mod_of_dvd (h k) hd]
          obtain ⟨i, hi⟩ := mem_items.1 hmem
          have hsame : t.getD (h k % t.length) none = some kv2 := by
            rw [← hmod, hp i kv2 hi]
            exact hi
          rw [hsame] at hslot
          obtain rfl : kv2 = kv := Option.some.inj hslot
          rfl

/-! ### `_fetchindex` characterisation -/

theorem fetchindex_zero_len {h : K → Nat} {t : Table K V}
    (hlen : t.length = 0) (k : K) :
    fetchindex h t k = .error .zeroDivision := by
  unfold fetchindex
  rw [if_pos hlen]

theorem fetchindex_empty {h : K → Nat} {t : Table K V} {k : K}
    (hpos : 0 < t.length)
    (hslot : t.getD (h k % t.length) none = none) :
    fetchindex h t k = .ok (none, h k % t.length) := by
  unfold fetchindex
  rw [if_neg (Nat.pos_iff_ne_zero.1 hpos)]
  simp only [hslot]

theorem fetchindex_found {h : K → Nat} {t : Table K V} {k : K} {kv : K × V}
    (hpos : 0 < t.length)
    (hslot : t.getD (h k % t.length) none = some kv) (hk : kv.1 = k) :
    fetchindex h t k = .ok (some true, h k % t.length) := by
  unfold fetchindex
  rw [if_neg (Nat.pos_iff_ne_zero.1 hpos)]
  cases kv with
  | mk k1 v1 =>
    simp only [hslot]
    rw [if_pos hk]

theorem fetchindex_coll {h : K → Nat} {t : Table K V} {k : K} {kv : K × V}
    (hpos : 0 < t.length)
    (hslot : t.getD (h k % t.length) none = some kv) (hk : kv.1 ≠ k) :
    fetchindex h t k = .ok (some false, h k % t.length) := by
  unfold fetchindex
  rw [if_neg (Nat.pos_iff_ne_zero.1 hpos)]
  cases kv with
  | mk k1 v1 =>
    simp only [hslot]
    rw [if_neg hk]

/-! ### The lookups in terms of the slot abstraction -/

theorem get_eq_lookupVal {h : K → Nat} {t : Table K V}
    (hpos : 0 < t.length) (k : K) (d : V) :
    get h t k d = .ok ((lookupVal h t k).getD d) := by
  unfold get lookupVal
  cases hslot : t.getD (h k % t.length) none with
  | none =>
    rw [fetchindex_empty hpos hslot]
    simp
  | some kv =>
    cases kv with
    | mk k1 v1 =>
      by_cases hk : k1 = k
      · rw [fetchindex_found hpos hslot hk]
        simp [hslot, hk]
        rw [← List.getD_eq_getElem?_getD, hslot]
      · rw [fetchindex_coll hpos hslot hk]
        simp [hslot, hk]

theorem getItem_eq_lookupVal {h : K → Nat} {t : Table K V}
    (hpos : 0 < t.length) (k : K) :
    getItem h t k =
      match lookupVal h t k with
      | some v => .ok v
      | none => .error .keyError := by
  unfold getItem lookupVal
  cases hslot : t.getD (h k % t.length) none with
  | none =>
    rw [fetchindex_empty hpos hslot]
    simp
  | some kv =>
    cases kv with
    | mk k1 v1 =>
      by_cases hk : k1 = k
      · rw [fetchindex_found hpos hslot hk]
        simp [hslot, hk]
        rw [← List.getD_eq_getElem?_getD, hslot]
      · rw [fetchindex_coll hpos hslot hk]
        simp [hslot, hk]

theorem containsKey_eq_lookupVal {h : K → Nat} {t : Table K V}
    (hpos : 0 < t.length) (k : K) :
    containsKey h t k = .ok ((lookupVal h t k).isSome) := by
  unfold containsKey lookupVal
  cases hslot : t.getD (h k % t.length) none with
  | none =>
    rw [fetchindex_empty hpos hslot]
    simp
  | some kv =>
    cases kv with
    | mk k1 v1 =>
      by_cases hk : k1 = k
      · rw [fetchindex_found hpos hslot hk]
        simp [hk]
      · rw [fetchindex_coll hpos hslot hk]
        simp [hk]

/-! ### Writing a slot -/

theorem placed_set_write {h : K → Nat} {t : Table K V} (hp : Placed h t)
    (hpos : 0 < t.length) (k : K) (v : V) :
    Placed h (t.set (h k % t.length) (some (k, v))) := by
  intro i kv hg
  rw [List.length_set] at *
  by_cases hi : h k % t.length = i
  · subst hi
    rw [getD_set_same _ (Nat.mod_lt _ hpos)] at hg
    obtain rfl : (k, v) = kv := Option.some.inj hg
    rfl
  · rw [getD_set_other _ hi] at hg
    exact hp i kv hg

theorem lookupVal_set_write_self {h : K → Nat} {t : Table K V}
    (hpos : 0 < t.length) (k : K) (v : V) :
    lookupVal h (t.set (h k % t.length) (some (k, v))) k = some v := by
  unfold lookupVal
  rw [List.length_set, getD_set_same _ (Nat.mod_lt _ hpos)]
  simp

theorem lookupVal_set_write_other {h : K → Nat} {t : Table K V}
    (hpos : 0 < t.length) {k k2 : K} (v : V) (hk2 : k2 ≠ k)
    (hslot : ∀ kv, t.getD (h k % t.length) none = some kv → kv.1 = k) :
    lookupVal h (t.set (h k % t.length) (some (k, v))) k2
      = lookupVal h t k2 := by
  have hne : ¬(k = k2) := fun hh => hk2 hh.symm
  unfold lookupVal
  rw [List.length_set]
  by_cases hi : h k % t.length = h k2 % t.length
  · rw [← hi, getD_set_same _ (Nat.mod_lt _ hpos)]
    cases hg : t.getD (h k % t.length) none with
    | none => simp [hne]
    | some kv =>
      cases kv with
      | mk k1 v1 =>
        have hk1 : k1 = k := hslot (k1, v1) hg
        subst hk1
        simp [hne]
  · rw [getD_set_other _ hi]

/-! ### `__setitem__` step lemmas -/

/-- The two definitional equations of the fuelled `__setitem__` loop. -/
theorem setItem_zero_eq (h : K → Nat) (t : Table K V) (k : K) (v : V) :
    setItem h 0 t k v =
      match fetchindex h t k with
      | .error e => some (.error e)
      | .ok (some false, _) => none
      | .ok (_, index) => some (.ok (t.set index (some (k, v)))) := rfl

theorem setItem_succ_eq (h : K → Nat) (fuel : Nat) (t : Table K V) (k : K)
    (v : V) :
    setItem h (fuel + 1) t k v =
      match fetchindex h t k with
      | .error e => some (.error e)
      | .ok (some false, _) => setItem h fuel (doublethehash h t) k v
      | .ok (_, index) => some (.ok (t.set index (some (k, v)))) := rfl

theorem setItem_zero_len {h : K → Nat} {t : Table K V}
    (hlen : t.length = 0) (fuel : Nat) (k : K) (v : V) :
    setItem h fuel t k v = some (.error .zeroDivision) := by
  cases fuel with
  | zero => rw [setItem_zero_eq, fetchindex_zero_len hlen]
  | succ n => rw [setItem_succ_eq, fetchindex_zero_len hlen]

theorem setItem_of_empty {h : K → Nat} {t : Table K V} {k : K}
    (hpos : 0 < t.length)
    (hslot : t.getD (h k % t.length) none = none) (fuel : Nat) (v : V) :
    setItem h fuel t k v
      = some (.ok (t.set (h k % t.length) (some (k, v)))) := by
  cases fuel with
  | zero => rw [setItem_zero_eq, fetchindex_empty hpos hslot]
  | succ n => rw [setItem_succ_eq, fetchindex_empty hpos hslot]

theorem setItem_of_found {h : K → Nat} {t : Table K V} {k : K} {kv : K × V}
    (hpos : 0 < t.length)
    (hslot : t.getD (h k % t.length) none = some kv) (hk : kv.1 = k)
    (fuel : Nat) (v : V) :
    setItem h fuel t k v
      = some (.ok (t.set (h k % t.length) (some (k, v)))) := by
  cases fuel with
  | zero => rw [setItem_zero_eq, fetchindex_found hpos hslot hk]
  | succ n => rw [setItem_succ_eq, fetchindex_found hpos hslot hk]

theorem setItem_of_coll_succ {h : K → Nat} {t : Table K V} {k : K}
    {kv : K × V} (hpos : 0 < t.length)
    (hslot : t.getD (h k % t.length) none = some kv) (hk : kv.1 ≠ k)
    (fuel : Nat) (v : V) :
    setItem h (fuel + 1) t k v = setItem h fuel (doublethehash h t) k v := by
  rw [setItem_succ_eq, fetchindex_coll hpos hslot hk]

theorem setItem_of_coll_zero {h : K → Nat} {t : Table K V} {k : K}
    {kv : K × V} (hpos : 0 < t.length)
    (hslot : t.getD (h k % t.length) none = some kv) (hk : kv.1 ≠ k)
    (v : V) :
    setItem h 0 t k v = none := by
  rw [setItem_zero_eq, fetchindex_coll hpos hslot hk]

/-- The master specification of a successful `__setitem__`: the placement
invariant is preserved, the length stays positive and is multiplied by a
power of two, the written key maps to the new value, and every other key's
binding is untouched. -/
theorem setItem_ok_spec {h : K → Nat} {fuel : Nat} {t t2 : Table K V}
    {k : K} {v : V} (hp : Placed h t)
    (hset : setItem h fuel t k v = some (.ok t2)) :
    Placed h t2 ∧ 0 < t2.length ∧ (∃ d, t2.length = 2 ^ d * t.length) ∧
      lookupVal h t2 k = some v ∧
      (∀ k2, k2 ≠ k → lookupVal h t2 k2 = lookupVal h t k2) := by
  induction fuel generalizing t with
  | zero =>
    rcases Nat.eq_zero_or_pos t.length with hlen0 | hpos
    · rw [setItem_zero_len hlen0] at hset
      cases Option.some.inj hset
    · cases hslot : t.getD (h k % t.length) none with
      | none =>
        rw [setItem_of_empty hpos hslot] at hset
        obtain rfl : t.set (h k % t.length) (some (k, v)) = t2 :=
          Except.ok.inj (Option.some.inj hset)
        refine ⟨placed_set_write hp hpos k v, ?_, ⟨0, ?_⟩,
          lookupVal_set_write_self hpos k v, ?_⟩
        · rw [List.length_set]; exact hpos
        · rw [List.length_set]; ring
        · intro k2 hk2
          exact lookupVal_set_write_other hpos v hk2
            (fun kv hg => by rw [hslot] at hg; cases hg)
      | some kv =>
        by_cases hk : kv.1 = k
        · rw [setItem_of_found hpos hslot hk] at hset
          obtain rfl : t.set (h k % t.length) (some (k, v)) = t2 :=
            Except.ok.inj (Option.some.inj hset)
          refine ⟨placed_set_write hp hpos k v, ?_, ⟨0, ?_⟩,
            lookupVal_set_write_self hpos k v, ?_⟩
          · rw [List.length_set]; exact hpos
          · rw [List.length_set]; ring
          · intro k2 hk2
            refine lookupVal_set_write_other hpos v hk2 (fun kv2 hg => ?_)
            rw [hslot] at hg
            obtain rfl : kv = kv2 := Option.some.inj hg
            exact hk
        · rw [setItem_of_coll_zero hpos hslot hk] at hset
          cases hset
  | succ fuel ih =>
    rcases Nat.eq_zero_or_pos t.length with hlen0 | hpos
    · rw [setItem_zero_len hlen0] at hset
      cases Option.some.inj hset
    · cases hslot : t.getD (h k % t.length) none with
      | none =>
        rw [setItem_of_empty hpos hslot] at hset
        obtain rfl : t.set (h k % t.length) (some (k, v)) = t2 :=
          Except.ok.inj (Option.some.inj hset)
        refine ⟨placed_set_write hp hpos k v, ?_, ⟨0, ?_⟩,
          lookupVal_set_write_self hpos k v, ?_⟩
        · rw [List.length_set]; exact hpos
        · rw [List.length_set]; ring
        · intro k2 hk2
          exact lookupVal_set_write_other hpos v hk2
            (fun kv hg => by rw [hslot] at hg; cases hg)
      | some kv =>
        by_cases hk : kv.1 = k
        · rw [setItem_of_found hpos hslot hk] at hset
          obtain rfl : t.set (h k % t.length) (some (k, v)) = t2 :=
            Except.ok.inj (Option.some.inj hset)
          refine ⟨placed_set_write hp hpos k v, ?_, ⟨0, ?_⟩,
            lookupVal_set_write_self hpos k v, ?_⟩
          · rw [List.length_set]; exact hpos
          · rw [List.length_set]; ring
          · intro k2 hk2
            refine lookupVal_set_write_other hpos v hk2 (fun kv2 hg => ?_)
            rw [hslot] at hg
            obtain rfl : kv = kv2 := Option.some.inj hg
            exact hk
        · rw [setItem_of_coll_succ hpos hslot hk] at hset
          obtain ⟨hp2, hpos2, ⟨d, hd⟩, hlook, hothers⟩ :=
            ih doublethehash_placed hset
          refine ⟨hp2, hpos2, ⟨d + 1, ?_⟩, hlook, ?_⟩
          · rw [hd, length_doublethehash]; ring
          · intro k2 hk2
            rw [hothers k2 hk2, lookupVal_doublethehash hp k2]

/-! ### `__delitem__` and `pop` -/

theorem delItem_zero_len {h : K → Nat} {t : Table K V}
    (hlen : t.length = 0) (k : K) :
    delItem h t k = .error .zeroDivision := by
  unfold delItem
  rw [fetchindex_zero_len hlen]

theorem delItem_eq_lookupVal {h : K → Nat} {t : Table K V}
    (hpos : 0 < t.length) (k : K) :
    delItem h t k =
      match lookupVal h t k with
      | some _ => .ok (t.set (h k % t.length) none)
      | none => .error .keyError := by
  unfold delItem lookupVal
  cases hslot : t.getD (h k % t.length) none with
  | none =>
    rw [fetchindex_empty hpos hslot]
    simp
  | some kv =>
    cases kv with
    | mk k1 v1 =>
      by_cases hk : k1 = k
      · rw [fetchindex_found hpos hslot hk]
        simp [hk]
      · rw [fetchindex_coll hpos hslot hk]
        simp [hk]

theorem popKey_eq_lookupVal {h : K → Nat} {t : Table K V}
    (hpos : 0 < t.length) (k : K) :
    popKey h t k =
      match lookupVal h t k with
      | some v => .ok (v, t.set (h k % t.length) none)
      | none => .error .keyError := by
  unfold popKey
  rw [getItem_eq_lookupVal hpos, delItem_eq_lookupVal hpos]
  cases lookupVal h t k <;> rfl

theorem placed_set_none {h : K → Nat} {t : Table K V} (hp : Placed h t)
    (i : Nat) : Placed h (t.set i none) := by
  intro j kv hg
  by_cases hij : i = j
  · subst hij
    have hj : i < t.length := by
      have := lt_of_getD_eq_some hg
      rwa [List.length_set] at this
    rw [getD_set_same _ hj] at hg
    cases hg
  · rw [getD_set_other _ hij] at hg
    rw [List.length_set]
    exact hp j kv hg

theorem delItem_ok_length {h : K → Nat} {t t2 : Table K V} {k : K}
    (hdel : delItem h t k = .ok t2) : t2.length = t.length := by
  rcases Nat.eq_zero_or_pos t.length with hlen0 | hpos
  · rw [delItem_zero_len hlen0] at hdel
    cases hdel
  · rw [delItem_eq_lookupVal hpos] at hdel
    cases hlook : lookupVal h t k with
    | none => rw [hlook] at hdel; cases hdel
    | some v =>
      rw [hlook] at hdel
      obtain rfl : t.set (h k % t.length) none = t2 := Except.ok.inj hdel
      exact List.length_set ..

theorem delItem_ok_placed {h : K → Nat} {t t2 : Table K V} {k : K}
    (hp : Placed h t) (hdel : delItem h t k = .ok t2) : Placed h t2 := by
  rcases Nat.eq_zero_or_pos t.length with hlen0 | hpos
  · rw [delItem_zero_len hlen0] at hdel
    cases hdel
  · rw [delItem_eq_lookupVal hpos] at hdel
    cases hlook : lookupVal h t k with
    | none => rw [hlook] at hdel; cases hdel
    | some v =>
      rw [hlook] at hdel
      obtain rfl : t.set (h k % t.length) none = t2 := Except.ok.inj hdel
      exact placed_set_none hp _

/-- `__setitem__` succeeding means the table length was multiplied by a
power of two (no invariant needed). -/
theorem setItem_ok_length {h : K → Nat} {fuel : Nat} {t t2 : Table K V}
    {k : K} {v : V} (hset : setItem h fuel t k v = some (.ok t2)) :
    ∃ d, t2.length = 2 ^ d * t.length := by
  induction fuel generalizing t with
  | zero =>
    rcases Nat.eq_zero_or_pos t.length with hlen0 | hpos
    · rw [setItem_zero_len hlen0] at hset
      cases Option.some.inj hset
    · cases hslot : t.getD (h k % t.length) none with
      | none =>
        rw [setItem_of_empty hpos hslot] at hset
        obtain rfl : t.set (h k % t.length) (some (k, v)) = t2 :=
          Except.ok.inj (Option.some.inj hset)
        exact ⟨0, by rw [List.length_set]; ring⟩
      | some kv =>
        by_cases hk : kv.1 = k
        · rw [setItem_of_found hpos hslot hk] at hset
          obtain rfl : t.set (h k % t.length) (some (k, v)) = t2 :=
            Except.ok.inj (Option.some.inj hset)
          exact ⟨0, by rw [List.length_set]; ring⟩
        · rw [setItem_of_coll_zero hpos hslot hk] at hset
          cases hset
  | succ fuel ih =>
    rcases Nat.eq_zero_or_pos t.length with hlen0 | hpos
    · rw [setItem_zero_len hlen0] at hset
      cases Option.some.inj hset
    · cases hslot : t.getD (h k % t.length) none with
      | none =>
        rw [setItem_of_empty hpos hslot] at hset
        obtain rfl : t.set (h k % t.length) (some (k, v)) = t2 :=
          Except.ok.inj (Option.some.inj hset)
        exact ⟨0, by rw [List.length_set]; ring⟩
      | some kv =>
        by_cases hk : kv.1 = k
        · rw [setItem_of_found hpos hslot hk] at hset
          obtain rfl : t.set (h k % t.length) (some (k, v)) = t2 :=
            Except.ok.inj (Option.some.inj hset)
          exact ⟨0, by rw [List.length_set]; ring⟩
        · rw [setItem_of_coll_succ hpos hslot hk] at hset
          obtain ⟨d, hd⟩ := ih hset
          exact ⟨d + 1, by rw [hd, length_doublethehash]; ring⟩

/-! ### Operation sequences -/

theorem applyOp_length {h : K → Nat} {fuel : Nat} {t t2 : Table K V}
    {op : Op K V} (hap : applyOp h fuel t op = some t2) :
    ∃ d, t2.length = 2 ^ d * t.length := by
  cases op with
  | setOp k v =>
    simp only [applyOp] at hap
    cases hset : setItem h fuel t k v with
    | none => rw [hset] at hap; cases hap
    | some r =>
      cases r with
      | error e =>
        rw [hset] at hap
        obtain rfl : t = t2 := Option.some.inj hap
        exact ⟨0, by ring⟩
      | ok t3 =>
        rw [hset] at hap
        obtain rfl : t3 = t2 := Option.some.inj hap
        exact setItem_ok_length hset
  | removeOp k =>
    simp only [applyOp] at hap
    cases hdel : delItem h t k with
    | error e =>
      rw [hdel] at hap
      obtain rfl : t = t2 := Option.some.inj hap
      exact ⟨0, by ring⟩
    | ok t3 =>
      rw [hdel] at hap
      obtain rfl : t3 = t2 := Option.some.inj hap
      exact ⟨0, by rw [delItem_ok_length hdel]; ring⟩
  | getOp k d =>
    obtain rfl : t = t2 := Option.some.inj hap
    exact ⟨0, by ring⟩
  | containsOp k =>
    obtain rfl : t = t2 := Option.some.inj hap
    exact ⟨0, by ring⟩
  | atOp k =>
    obtain rfl : t = t2 := Option.some.inj hap
    exact ⟨0, by ring⟩
  | enumOp =>
    obtain rfl : t = t2 := Option.some.inj hap
    exact ⟨0, by ring⟩

theorem applyOp_placed {h : K → Nat} {fuel : Nat} {t t2 : Table K V}
    {op : Op K V} (hp : Placed h t)
    (hap : applyOp h fuel t op = some t2) : Placed h t2 := by
  cases op with
  | setOp k v =>
    simp only [applyOp] at hap
    cases hset : setItem h fuel t k v with
    | none => rw [hset] at hap; cases hap
    | some r =>
      cases r with
      | error e =>
        rw [hset] at hap
        obtain rfl : t = t2 := Option.some.inj hap
        exact hp
      | ok t3 =>
        rw [hset] at hap
        obtain rfl : t3 = t2 := Option.some.inj hap
        exact (setItem_ok_spec hp hset).1
  | removeOp k =>
    simp only [applyOp] at hap
    cases hdel : delItem h t k with
    | error e =>
      rw [hdel] at hap
      obtain rfl : t = t2 := Option.some.inj hap
      exact hp
    | ok t3 =>
      rw [hdel] at hap
      obtain rfl : t3 = t2 := Option.some.inj hap
      exact delItem_ok_placed hp hdel
  | getOp k d => obtain rfl : t = t2 := Option.some.inj hap; exact hp
  | containsOp k => obtain rfl : t = t2 := Option.some.inj hap; exact hp
  | atOp k => obtain rfl : t = t2 := Option.some.inj hap; exact hp
  | enumOp => obtain rfl : t = t2 := Option.some.inj hap; exact hp

theorem runOps_length {h : K → Nat} {fuel : Nat} {t t2 : Table K V}
    {ops : List (Op K V)} (hrun : runOps h fuel t ops = some t2) :
    ∃ d, t2.length = 2 ^ d * t.length := by
  induction ops generalizing t with
  | nil =>
    obtain rfl : t = t2 := Option.some.inj hrun
    exact ⟨0, by ring⟩
  | cons op ops ih =>
    simp only [runOps] at hrun
    cases hap : applyOp h fuel t op with
    | none => rw [hap] at hrun; cases hrun
    | some t3 =>
      rw [hap] at hrun
      obtain ⟨d1, hd1⟩ := applyOp_length hap
      obtain ⟨d2, hd2⟩ := ih hrun
      exact ⟨d2 + d1, by rw [hd2, hd1, pow_add]; ring⟩

theorem runOps_placed {h : K → Nat} {fuel : Nat} {t t2 : Table K V}
    {ops : List (Op K V)} (hp : Placed h t)
    (hrun : runOps h fuel t ops = some t2) : Placed h t2 := by
  induction ops generalizing t with
  | nil => obtain rfl : t = t2 := Option.some.inj hrun; exact hp
  | cons op ops ih =>
    simp only [runOps] at hrun
    cases hap : applyOp h fuel t op with
    | none => rw [hap] at hrun; cases hrun
    | some t3 =>
      rw [hap] at hrun
      exact ih (applyOp_placed hp hap) hrun

/-! ### Insertion sequences -/

theorem setAll_placed_lookup {h : K → Nat} {fuel : Nat} {t t2 : Table K V}
    {l : List (K × V)} (hp : Placed h t)
    (hrun : setAll h fuel t l = some t2) :
    Placed h t2 ∧
      (∀ k, k ∉ l.map Prod.fst → lookupVal h t2 k = lookupVal h t k) := by
  induction l generalizing t with
  | nil =>
    obtain rfl : t = t2 := Option.some.inj hrun
    exact ⟨hp, fun _ _ => rfl⟩
  | cons kv l ih =>
    cases kv with
    | mk k v =>
      simp only [setAll] at hrun
      cases hset : setItem h fuel t k v with
      | none => rw [hset] at hrun; cases hrun
      | some r =>
        cases r with
        | error e => rw [hset] at hrun; cases hrun
        | ok t3 =>
          rw [hset] at hrun
          obtain ⟨hp3, _, _, hself, hothers⟩ := setItem_ok_spec hp hset
          obtain ⟨hp2, hpres⟩ := ih hp3 hrun
          refine ⟨hp2, fun k2 hk2 => ?_⟩
          rw [List.map_cons, List.mem_cons] at hk2
          push_neg at hk2
          rw [hpres k2 hk2.2, hothers k2 hk2.1]

theorem setAll_lookup {h : K → Nat} {fuel : Nat} {t t2 : Table K V}
    {l : List (K × V)} (hp : Placed h t)
    (hnd : (l.map Prod.fst).Nodup) (hrun : setAll h fuel t l = some t2) :
    ∀ kv ∈ l, lookupVal h t2 kv.1 = some kv.2 := by
  induction l generalizing t with
  | nil => intro kv hkv; cases hkv
  | cons kv0 l ih =>
    cases kv0 with
    | mk k v =>
      simp only [setAll] at hrun
      cases hset : setItem h fuel t k v with
      | none => rw [hset] at hrun; cases hrun
      | some r =>
        cases r with
        | error e => rw [hset] at hrun; cases hrun
        | ok t3 =>
          rw [hset] at hrun
          obtain ⟨hp3, _, _, hself, _⟩ := setItem_ok_spec hp hset
          rw [List.map_cons, List.nodup_cons] at hnd
          intro kv hkv
          rcases List.mem_cons.1 hkv with rfl | hmem
          · obtain ⟨_, hpres⟩ := setAll_placed_lookup hp3 hrun
            rw [hpres k hnd.1, hself]
          · exact ih hp3 hnd.2 hrun kv hmem

theorem setAll_pos {h : K → Nat} {fuel : Nat} {t t2 : Table K V}
    {l : List (K × V)} (hrun : setAll h fuel t l = some t2)
    (hne : l ≠ []) : 0 < t2.length := by
  induction l generalizing t with
  | nil => exact absurd rfl hne
  | cons kv0 l ih =>
    cases kv0 with
    | mk k v =>
      simp only [setAll] at hrun
      cases hset : setItem h fuel t k v with
      | none => rw [hset] at hrun; cases hrun
      | some r =>
        cases r with
        | error e => rw [hset] at hrun; cases hrun
        | ok t3 =>
          rw [hset] at hrun
          cases l with
          | nil =>
            obtain rfl : t3 = t2 := Option.some.inj hrun
            obtain ⟨d, hd⟩ := setItem_ok_length hset
            have hpos3 : 0 < t3.length := by
              rcases Nat.eq_zero_or_pos t.length with hlen0 | hpos
              · rw [setItem_zero_len hlen0] at hset
                cases Option.some.inj hset
              · rw [hd]
                positivity
            exact hpos3
          | cons kv1 l => exact ih hrun (by simp)

/-! ### Enumeration order -/

theorem items_eq_range_filterMap (t : Table K V) :
    items t = (List.range t.length).filterMap (fun i => t.getD i none) := by
  induction t with
  | nil => rfl
  | cons a t ih =>
    rw [items, List.filterMap_cons, List.length_cons, List.range_succ_eq_map,
      List.filterMap_cons, List.filterMap_map]
    have hcomp :
        ((fun i => (a :: t).getD i none) ∘ Nat.succ)
          = fun i => t.getD i none := rfl
    rw [hcomp]
    cases a with
    | none => rw [← ih]; rfl
    | some kv => rw [← ih]; rfl

theorem items_nodup {h : K → Nat} {t : Table K V} (hp : Placed h t) :
    (items t).Nodup := by
  rw [items_eq_range_filterMap]
  refine List.Nodup.filterMap ?_ (List.nodup_range _)
  intro i i2 kv hkv hkv2
  rw [Option.mem_def] at hkv hkv2
  rw [← hp i kv hkv, ← hp i2 kv hkv2]

theorem keysList_nodup {h : K → Nat} {t : Table K V} (hp : Placed h t) :
    (keysList t).Nodup := by
  unfold keysList
  refine List.Nodup.map_on ?_ (items_nodup hp)
  intro kv hkv kv2 hkv2 hfst
  obtain ⟨i, hi⟩ := mem_items.1 hkv
  obtain ⟨i2, hi2⟩ := mem_items.1 hkv2
  have : i = i2 := by
    rw [← hp i kv hi, ← hp i2 kv2 hi2, hfst]
  rw [this, hi2] at hi
  exact (Option.some.inj hi).symm

theorem keysList_mem_iff {h : K → Nat} {t : Table K V} (hp : Placed h t)
    (hpos : 0 < t.length) (k : K) :
    k ∈ keysList t ↔ containsKey h t k = .ok true := by
  rw [containsKey_eq_lookupVal hpos]
  unfold keysList
  constructor
  · intro hk
    obtain ⟨kv, hkv, rfl⟩ := List.mem_map.1 hk
    obtain ⟨i, hi⟩ := mem_items.1 hkv
    have hslot := placed_key_slot hp hi
    unfold lookupVal
    rw [hslot]
    cases kv with
    | mk k1 v1 => simp
  · intro hc
    have hsome : (lookupVal h t k).isSome = true := by
      have := Except.ok.inj hc
      exact this
    unfold lookupVal at hsome
    cases hslot : t.getD (h k % t.length) none with
    | none => rw [hslot] at hsome; cases hsome
    | some kv =>
      cases kv with
      | mk k1 v1 =>
        rw [hslot] at hsome
        by_cases hk : k1 = k
        · subst hk
          exact List.mem_map.2 ⟨(k1, v1), mem_items.2 ⟨_, hslot⟩, rfl⟩
        · simp [hk] at hsome

theorem lookupVal_of_slot_none {h : K → Nat} {t : Table K V} {k : K}
    (hslot : t.getD (h k % t.length) none = none) :
    lookupVal h t k = none := by
  unfold lookupVal
  rw [hslot]

theorem lookupVal_of_slot_some {h : K → Nat} {t : Table K V} {k k1 : K}
    {v1 : V} (hslot : t.getD (h k % t.length) none = some (k1, v1)) :
    lookupVal h t k = if k1 = k then some v1 else none := by
  unfold lookupVal
  rw [hslot]

/-! ### The claims -/

/-- C1: for every sequence of insertions via `set` with pairwise distinct
keys, `get(key)` after the last insertion of that key returns the last
value written for it. -/
theorem insert_lookup_round_trip {h : K → Nat} {fuel : Nat}
    {t t2 : Table K V} {l : List (K × V)} {k : K} {v : V} (d : V)
    (hp : Placed h t) (hnd : (l.map Prod.fst).Nodup)
    (hrun : setAll h fuel t l = some t2) (hkv : (k, v) ∈ l) :
    get h t2 k d = .ok v := by
  have hpos : 0 < t2.length := setAll_pos hrun (by rintro rfl; cases hkv)
  have hlook := setAll_lookup hp hnd hrun (k, v) hkv
  rw [get_eq_lookupVal hpos, hlook]
  rfl

theorem insert_lookup_round_trip_witness :
    setAll id 5 (mkTable Nat Nat 4) [(0, 2), (5, 7)]
        = some [some (0, 2), some (5, 7), none, none] ∧
      get id [some (0, 2), some (5, 7), none, none] 0 42 = Except.ok 2 :=
  ⟨by decide,
    insert_lookup_round_trip 42 (placed_mkTable id 4) (by decide)
      (by decide : setAll id 5 (mkTable Nat Nat 4) [(0, 2), (5, 7)]
        = some [some (0, 2), some (5, 7), none, none])
      (by decide)⟩

/-- C2: a growth event preserves every stored binding (each previously
stored key is still retrievable with its unchanged value), the rehash
places each old occupied entry directly at `hash(key) mod new_length`, and
when the old table length is a power of two the rehash introduces no
collision among the pre-existing keys. -/
theorem growth_preserves_data {h : K → Nat} {t : Table K V}
    (hp : Placed h t) (hpow : ∃ m, t.length = 2 ^ m) :
    (∀ kv ∈ items t, getItem h (doublethehash h t) kv.1 = .ok kv.2) ∧
      (∀ kv ∈ items t,
        (doublethehash h t).getD (h kv.1 % (2 * t.length)) none = some kv) ∧
      (∀ kv ∈ items t, ∀ kv2 ∈ items t, kv.1 ≠ kv2.1 →
        h kv.1 % (2 * t.length) ≠ h kv2.1 % (2 * t.length)) := by
  obtain ⟨m, hm⟩ := hpow
  have hpos : 0 < t.length := by
    rw [hm]
    positivity
  have hpos2 : 0 < (doublethehash h t).length := by
    rw [length_doublethehash]
    omega
  refine ⟨?_, fun kv hkv => doublethehash_getD_mem hp hpos hkv, ?_⟩
  · intro kv hkv
    rw [getItem_eq_lookupVal hpos2, lookupVal_doublethehash hp]
    obtain ⟨i, hi⟩ := mem_items.1 hkv
    have hslot := placed_key_slot hp hi
    unfold lookupVal
    rw [hslot]
    cases kv with
    | mk k1 v1 => simp
  · intro kv hkv kv2 hkv2 hne heq
    exact hne (congrArg Prod.fst (placed_items_uniq hp hkv2 hkv heq))

theorem growth_preserves_data_witness :
    getItem id (doublethehash id [none, some (1, 10)]) 1 = Except.ok 10 :=
  (growth_preserves_data (t := [none, some (1, 10)])
      (placed_of_check (by decide)) ⟨1, by decide⟩).1 (1, 10) (by decide)

/-- C3: starting from a power-of-two initial size, every state reached
during the map's lifetime has a power-of-two capacity, and between any
reached state and any later state of the same lifetime (the later state
obtained by running further operations from the earlier one) the capacity
never decreases; and `len` reports the table length (capacity), not the
occupied count. -/
theorem capacity_pow_two_monotone {h : K → Nat} {fuel m : Nat}
    {t1 t2 : Table K V} {ops1 ops2 : List (Op K V)}
    (hrun1 : runOps h fuel (mkTable K V (2 ^ m)) ops1 = some t1)
    (hrun2 : runOps h fuel t1 ops2 = some t2) :
    ((∃ m1, lenMap t1 = 2 ^ m1) ∧ (∃ m2, lenMap t2 = 2 ^ m2) ∧
        lenMap t1 ≤ lenMap t2) ∧
      (lenMap (mkTable Nat Nat 4) = 4 ∧
        (items (mkTable Nat Nat 4)).length = 0) := by
  obtain ⟨d1, hd1⟩ := runOps_length hrun1
  obtain ⟨d2, hd2⟩ := runOps_length hrun2
  have hlen : (mkTable K V (2 ^ m)).length = 2 ^ m := by
    unfold mkTable
    exact List.length_replicate ..
  refine ⟨⟨⟨d1 + m, ?_⟩, ⟨d2 + (d1 + m), ?_⟩, ?_⟩, rfl, rfl⟩
  · rw [lenMap, hd1, hlen, pow_add]
  · rw [lenMap, hd2, hd1, hlen, pow_add, pow_add]
  · rw [lenMap, lenMap, hd2]
    exact Nat.le_mul_of_pos_left _ (Nat.pos_pow_of_pos d2 (by omega))

theorem capacity_pow_two_monotone_witness :
    ((∃ m1, lenMap ([some (0, 2), none, none, none] : Table Nat Nat)
          = 2 ^ m1) ∧
        (∃ m2, lenMap ([none, none, none, none] : Table Nat Nat) = 2 ^ m2) ∧
        lenMap ([some (0, 2), none, none, none] : Table Nat Nat)
          ≤ lenMap ([none, none, none, none] : Table Nat Nat)) ∧
      (lenMap (mkTable Nat Nat 4) = 4 ∧
        (items (mkTable Nat Nat 4)).length = 0) :=
  capacity_pow_two_monotone
    (by decide : runOps id 20 (mkTable Nat Nat (2 ^ 2)) [Op.setOp 0 2]
      = some [some (0, 2), none, none, none])
    (by decide : runOps id 20 [some (0, 2), none, none, none] [Op.removeOp 0]
      = some [none, none, none, none])

/-- C4: every operation preserves the placement invariant (each occupied
slot sits at `hash(key) mod table_length`) and key uniqueness across
slots. -/
theorem ops_preserve_invariants {h : K → Nat} {fuel : Nat}
    {t t2 : Table K V} {op : Op K V} (hp : Placed h t)
    (hap : applyOp h fuel t op = some t2) :
    Placed h t2 ∧
      (∀ i j kvi kvj, t2.getD i none = some kvi →
        t2.getD j none = some kvj → kvi.1 = kvj.1 → i = j) := by
  have hp2 := applyOp_placed hp hap
  refine ⟨hp2, fun i j kvi kvj hi hj hk => ?_⟩
  rw [← hp2 i kvi hi, ← hp2 j kvj hj, hk]

theorem ops_preserve_invariants_witness :
    Placed id ([none, none, none, some (3, 9)] : Table Nat Nat) ∧
      (∀ i j kvi kvj,
        ([none, none, none, some (3, 9)] : Table Nat Nat).getD i none
            = some kvi →
        ([none, none, none, some (3, 9)] : Table Nat Nat).getD j none
            = some kvj → kvi.1 = kvj.1 → i = j) :=
  ops_preserve_invariants (placed_mkTable id 4)
    (by decide : applyOp id 5 (mkTable Nat Nat 4) (Op.setOp 3 9)
      = some [none, none, none, some (3, 9)])

/-- C5: inserting a key whose hash is distinct modulo the current table
length from the hashes of all stored keys never triggers growth: the
insertion succeeds at once and the table length is unchanged. -/
theorem no_false_collision_growth {h : K → Nat} {t : Table K V} {k : K}
    (hp : Placed h t) (hpos : 0 < t.length)
    (hdist : ∀ kv ∈ items t, h kv.1 % t.length ≠ h k % t.length)
    (fuel : Nat) (v : V) :
    ∃ t2, setItem h fuel t k v = some (.ok t2) ∧ t2.length = t.length := by
  have hslot : t.getD (h k % t.length) none = none := by
    cases hg : t.getD (h k % t.length) none with
    | none => rfl
    | some kv =>
      have hkv : kv ∈ items t := mem_items.2 ⟨_, hg⟩
      exact absurd (hp _ kv hg) (hdist kv hkv)
  exact ⟨_, setItem_of_empty hpos hslot fuel v, by rw [List.length_set]⟩

theorem no_false_collision_growth_witness :
    ∃ t2, setItem id 3 ([some (0, 5), none] : Table Nat Nat) 1 7
        = some (.ok t2) ∧
      t2.length = ([some (0, 5), none] : Table Nat Nat).length :=
  no_false_collision_growth (placed_of_check (by decide)) (by decide)
    (by decide) 3 7

/-- C6: `remove` (`pop`) on an absent key — empty slot or slot occupied by
a different key — fails with KeyNotFound; on a present key it returns the
removed value, clears the slot to Empty, and `contains` becomes false. -/
theorem remove_contract {h : K → Nat} {t : Table K V} {k : K}
    (hpos : 0 < t.length) :
    (lookupVal h t k = none → popKey h t k = .error .keyError) ∧
      (∀ v, lookupVal h t k = some v →
        ∃ t2, popKey h t k = .ok (v, t2) ∧
          t2.getD (h k % t2.length) none = none ∧
          containsKey h t2 k = .ok false) := by
  constructor
  · intro habs
    rw [popKey_eq_lookupVal hpos, habs]
  · intro v hv
    rw [popKey_eq_lookupVal hpos, hv]
    refine ⟨t.set (h k % t.length) none, rfl, ?_, ?_⟩
    · rw [List.length_set, getD_set_same _ (Nat.mod_lt _ hpos)]
    · have hpos2 : 0 < (t.set (h k % t.length) none).length := by
        rw [List.length_set]
        exact hpos
      rw [containsKey_eq_lookupVal hpos2]
      unfold lookupVal
      rw [List.length_set, getD_set_same _ (Nat.mod_lt _ hpos)]
      rfl

theorem remove_contract_witness :
    ∃ t2, popKey id ([some (0, 5), none] : Table Nat Nat) 0 = .ok (5, t2) ∧
      t2.getD (id 0 % t2.length) none = none ∧
      containsKey id t2 0 = .ok false :=
  (remove_contract (by decide)).2 5 (by decide)

/-- C7: `at` fails with KeyNotFound exactly when resolution of the key is
not Found (the slot is empty or holds a different key), and otherwise
returns the value stored for the key. -/
theorem at_contract {h : K → Nat} {t : Table K V} {k : K}
    (hpos : 0 < t.length) :
    (getItem h t k = .error .keyError ↔ lookupVal h t k = none) ∧
      (∀ v, lookupVal h t k = some v → getItem h t k = .ok v) ∧
      (lookupVal h t k = none ↔
        ∀ i, fetchindex h t k ≠ .ok (some true, i)) := by
  refine ⟨?_, ?_, ?_, ?_⟩
  · rw [getItem_eq_lookupVal hpos]
    cases hl : lookupVal h t k with
    | none => simp
    | some v => simp
  · intro v hv
    rw [getItem_eq_lookupVal hpos, hv]
  · intro hnone i hfi
    cases hslot : t.getD (h k % t.length) none with
    | none =>
      rw [fetchindex_empty hpos hslot] at hfi
      simp at hfi
    | some kv =>
      cases kv with
      | mk k1 v1 =>
        by_cases hk : k1 = k
        · rw [lookupVal_of_slot_some hslot, if_pos hk] at hnone
          cases hnone
        · rw [fetchindex_coll hpos hslot hk] at hfi
          simp at hfi
  · intro hnf
    cases hslot : t.getD (h k % t.length) none with
    | none => exact lookupVal_of_slot_none hslot
    | some kv =>
      cases kv with
      | mk k1 v1 =>
        by_cases hk : k1 = k
        · exact absurd (fetchindex_found hpos hslot hk) (hnf _)
        · rw [lookupVal_of_slot_some hslot, if_neg hk]

theorem at_contract_witness :
    (getItem id ([some (0, 5), none] : Table Nat Nat) 0
          = .error .keyError ↔
        lookupVal id ([some (0, 5), none] : Table Nat Nat) 0 = none) ∧
      (∀ v, lookupVal id ([some (0, 5), none] : Table Nat Nat) 0 = some v →
        getItem id ([some (0, 5), none] : Table Nat Nat) 0 = .ok v) ∧
      (lookupVal id ([some (0, 5), none] : Table Nat Nat) 0 = none ↔
        ∀ i, fetchindex id ([some (0, 5), none] : Table Nat Nat) 0
          ≠ .ok (some true, i)) :=
  at_contract (by decide)

/-- C8: `entries`, `keys`, `values` enumerate exactly the occupied slots in
increasing table-index order, each occupied slot once; and after any
operation sequence from a fresh table the keys enumerated are exactly the
present keys. -/
theorem enumeration_exact {h : K → Nat} (t : Table K V) :
    (items t = (List.range t.length).filterMap (fun i => t.getD i none)) ∧
      (∀ kv, kv ∈ items t ↔ ∃ i, t.getD i none = some kv) ∧
      (keysList t = (items t).map Prod.fst ∧
        valuesList t = (items t).map Prod.snd) ∧
      (Placed h t → (keysList t).Nodup) ∧
      (Placed h t → 0 < t.length →
        ∀ k, k ∈ keysList t ↔ containsKey h t k = .ok true) ∧
      (∀ fuel n (ops : List (Op K V)) t2, 0 < n →
        runOps h fuel (mkTable K V n) ops = some t2 →
        ∀ k, (k ∈ keysList t2 ↔ containsKey h t2 k = .ok true)) := by
  refine ⟨items_eq_range_filterMap t, fun kv => mem_items, ⟨rfl, rfl⟩,
    fun hp => keysList_nodup hp, fun hp hpos k => keysList_mem_iff hp hpos k,
    ?_⟩
  intro fuel n ops t2 hn hrun k
  have hp2 : Placed h t2 := runOps_placed (placed_mkTable h n) hrun
  obtain ⟨d, hd⟩ := runOps_length hrun
  have hlen : (mkTable K V n).length = n := by
    unfold mkTable
    exact List.length_replicate ..
  have hpos2 : 0 < t2.length := by
    rw [hd, hlen]
    exact Nat.mul_pos (Nat.pos_pow_of_pos d (by omega)) hn
  exact keysList_mem_iff hp2 hpos2 k

theorem enumeration_exact_witness :
    0 ∈ keysList ([some (0, 5), none] : Table Nat Nat) ↔
      containsKey id ([some (0, 5), none] : Table Nat Nat) 0 = .ok true :=
  (enumeration_exact [some (0, 5), none]).2.2.2.2.1
    (placed_of_check (by decide)) (by decide) 0

set_option maxRecDepth 40000 in
/-- C9: the concrete scenario from `__main__`: `new(4)`; `set(0, 2)` gives
`len() == 4`; `set(1024, 3)` collides with key 0 and doubles until the
residues differ, leaving `len() == 2048`, a power of two that is at least
8; `get(0, default=42)` returns 2; after `remove(0)`, `keys()` yields only
`[1024]`. -/
theorem concrete_scenario :
    scenario1.map lenMap = some 4 ∧
      scenario2.map lenMap = some 2048 ∧
      (2048 : Nat) = 2 ^ 11 ∧ (8 : Nat) ≤ 2048 ∧
      1024 % 2048 ≠ 0 % 2048 ∧
      scenario2.bind (fun t2 => okVal (get id t2 0 42)) = some 2 ∧
      scenario3.map keysList = some [1024] := by
  decide

/-- C10: with a nonempty table every index produced by `_fetchindex` is in
bounds (so every slot read and write of the operations is in bounds), and a
table of length zero — as produced by `new(0)` — makes every key-resolving
operation fail with ZeroDivisionError. -/
theorem index_bounds_and_zero_size {h : K → Nat} {t : Table K V} {k : K} :
    (∀ found i, fetchindex h t k = .ok (found, i) → i < t.length) ∧
      (t.length = 0 →
        fetchindex h t k = .error .zeroDivision ∧
        containsKey h t k = .error .zeroDivision ∧
        (∀ d, get h t k d = .error .zeroDivision) ∧
        getItem h t k = .error .zeroDivision ∧
        delItem h t k = .error .zeroDivision ∧
        (∀ fuel v, setItem h fuel t k v = some (.error .zeroDivision)) ∧
        popKey h t k = .error .zeroDivision) ∧
      (mkTable K V 0).length = 0 := by
  refine ⟨?_, ?_, rfl⟩
  · intro found i hfi
    rcases Nat.eq_zero_or_pos t.length with hlen0 | hpos
    · rw [fetchindex_zero_len hlen0] at hfi
      cases hfi
    · have hidx : i = h k % t.length := by
        cases hslot : t.getD (h k % t.length) none with
        | none =>
          rw [fetchindex_empty hpos hslot] at hfi
          exact (congrArg Prod.snd (Except.ok.inj hfi)).symm
        | some kv =>
          by_cases hk : kv.1 = k
          · rw [fetchindex_found hpos hslot hk] at hfi
            exact (congrArg Prod.snd (Except.ok.inj hfi)).symm
          · rw [fetchindex_coll hpos hslot hk] at hfi
            exact (congrArg Prod.snd (Except.ok.inj hfi)).symm
      rw [hidx]
      exact Nat.mod_lt _ hpos
  · intro hlen0
    refine ⟨fetchindex_zero_len hlen0 k, ?_, ?_, ?_, ?_,
      fun fuel v => setItem_zero_len hlen0 fuel k v, ?_⟩
    · unfold containsKey
      rw [fetchindex_zero_len hlen0]
    · intro d
      unfold get
      rw [fetchindex_zero_len hlen0]
    · unfold getItem
      rw [fetchindex_zero_len hlen0]
    · exact delItem_zero_len hlen0 k
    · unfold popKey getItem
      rw [fetchindex_zero_len hlen0]

theorem index_bounds_and_zero_size_witness :
    fetchindex id (mkTable Nat Nat 0) 0 = .error .zeroDivision ∧
      containsKey id (mkTable Nat Nat 0) 0 = .error .zeroDivision ∧
      (∀ d, get id (mkTable Nat Nat 0) 0 d = .error .zeroDivision) ∧
      getItem id (mkTable Nat Nat 0) 0 = .error .zeroDivision ∧
      delItem id (mkTable Nat Nat 0) 0 = .error .zeroDivision ∧
      (∀ fuel v,
        setItem id fuel (mkTable Nat Nat 0) 0 v
          = some (.error .zeroDivision)) ∧
      popKey id (mkTable Nat Nat 0) 0 = .error .zeroDivision :=
  (index_bounds_and_zero_size (h := id) (t := mkTable Nat Nat 0)
    (k := 0)).2.1 (by decide)

end NaivePerfectHash
